import Mathlib

/-!
Verification of the order aggregation and classification core of the
relix-daily-reporting scripts (`daily_revenue_report.py` and
`update_ecom_dashboard.py`).

The embedding models the pure aggregation pipeline: `sum_revenue`,
`classify_line_item`, `count_units_by_category`, `top_products` and
`monthly_revenue`.  Python `Decimal` values are modelled as exact rationals
(`Rat`); the 28-significant-digit context rounding of the default decimal
context is outside the model, as are non-finite decimals (`NaN`,
`Infinity`), which no realistic price string produces.  JSON record fields
are modelled as `Option` values where `none` is an absent key; a key that
is present holds a value of the field's documented type (strings for
prices and timestamps, a non-negative integer for `quantity`, per the
upstream API contract stated in the spec's data model).  A raised Python
exception is modelled as `none` in an `Option` result.
-/

/-- Characters stripped by Python's `str.strip()` (ASCII whitespace; the
rarely-seen Unicode space characters are outside the model). -/
def isPyWs (c : Char) : Bool :=
  c == ' ' || c == '\t' || c == '\n' || c == '\r' || c == '\x0b' || c == '\x0c'

/-- Remove leading and trailing whitespace characters from a character list. -/
def stripList (cs : List Char) : List Char :=
  ((cs.dropWhile isPyWs).reverse.dropWhile isPyWs).reverse

/-- Python `str.strip()`. -/
def pyStrip (s : String) : String :=
  String.mk (stripList s.data)

/-- Python `str.lower()` (ASCII case folding; the source's category names and
keywords are all ASCII). -/
def pyLower (s : String) : String :=
  String.mk (s.data.map Char.toLower)

/-- Whether `needle` occurs as a contiguous sublist of the second argument,
i.e. Python's substring test `needle in hay`. -/
def subListOf (needle : List Char) : List Char → Bool
  | [] => needle.isEmpty
  | c :: rest => needle.isPrefixOf (c :: rest) || subListOf needle rest

/-- Python's `keyword in hay` substring test on strings. -/
def pyContains (hay needle : String) : Bool :=
  subListOf needle.data hay.data

/-- Python slice `s[a:b]` (for `a ≤ b`), clipped at the end of the string. -/
def sliceStr (s : String) (a b : Nat) : String :=
  String.mk ((s.data.drop a).take (b - a))

/-- Numeric value of a list of ASCII digits, most significant first. -/
def digitsVal (cs : List Char) : Nat :=
  cs.foldl (fun n c => n * 10 + (c.toNat - 48)) 0

/-- Scale a rational by a signed power of ten. -/
def applyExp (q : Rat) (e : Int) : Rat :=
  if 0 ≤ e then q * (10 : Rat) ^ e.toNat else q / (10 : Rat) ^ (-e).toNat

/-- Python `Decimal(s)` for finite numeric strings: optional surrounding
whitespace, underscores removed, optional sign, digits with an optional
fractional part, optional decimal exponent.  Returns `none` when the string
is not a valid numeric string, which in the scripts corresponds to
`decimal.InvalidOperation` being raised.  The non-finite spellings
(`NaN`, `Infinity`) are outside the model and also map to `none`. -/
def pyDecimalParse (s : String) : Option Rat :=
  let cs := (stripList s.data).filter (fun c => c != '_')
  let sgnCs : Int × List Char :=
    match cs with
    | '+' :: rest => (1, rest)
    | '-' :: rest => (-1, rest)
    | rest => (1, rest)
  let sgn := sgnCs.1
  let cs := sgnCs.2
  let intPart := cs.takeWhile Char.isDigit
  let cs1 := cs.dropWhile Char.isDigit
  let fracCs : List Char × List Char :=
    match cs1 with
    | '.' :: rest => (rest.takeWhile Char.isDigit, rest.dropWhile Char.isDigit)
    | rest => ([], rest)
  let fracPart := fracCs.1
  let cs2 := fracCs.2
  if intPart = [] ∧ fracPart = [] then none
  else
    let mant : Rat := (digitsVal (intPart ++ fracPart) : Rat) / (10 : Rat) ^ fracPart.length
    let mant := if sgn = 1 then mant else -mant
    match cs2 with
    | [] => some mant
    | e :: rest =>
      if e = 'e' ∨ e = 'E' then
        let esgnCs : Int × List Char :=
          match rest with
          | '+' :: r => (1, r)
          | '-' :: r => (-1, r)
          | r => (1, r)
        let eds := esgnCs.2.takeWhile Char.isDigit
        let rest2 := esgnCs.2.dropWhile Char.isDigit
        if eds = [] ∨ rest2 ≠ [] then none
        else some (applyExp mant (esgnCs.1 * (digitsVal eds : Int)))
      else none

/-- After the leading digit of a Python integer literal body: digits with
single underscores allowed only between digits. -/
def digitsTail : List Char → Bool
  | [] => true
  | '_' :: [] => false
  | '_' :: c :: rest => c.isDigit && digitsTail rest
  | c :: rest => c.isDigit && digitsTail rest

/-- A non-empty ASCII digit run with Python's underscore grouping rules. -/
def underscoredDigits : List Char → Bool
  | [] => false
  | c :: rest => c.isDigit && digitsTail rest

/-- Python `int(s)` on a decimal string: optional surrounding whitespace,
optional sign, non-empty digit run (underscore grouping allowed).  `none`
models a raised `ValueError`. -/
def pyIntParse (s : String) : Option Int :=
  let cs := stripList s.data
  let sgnCs : Int × List Char :=
    match cs with
    | '+' :: rest => (1, rest)
    | '-' :: rest => (-1, rest)
    | rest => (1, rest)
  if underscoredDigits sgnCs.2 then
    some (sgnCs.1 * (digitsVal (sgnCs.2.filter Char.isDigit) : Int))
  else none

/-- One product line within an order (`line_items` entries of the Shopify
order payload).  `none` models an absent key. -/
structure LineItem where
  title : Option String
  product_type : Option String
  price : Option String
  quantity : Option Nat
deriving DecidableEq

/-- One commerce order as consumed by the aggregation core.  The `id` field
of the payload is never read by the core and is omitted. -/
structure Order where
  created_at : Option String
  total_price : Option String
  line_items : List LineItem
deriving DecidableEq

/-- The fixed category list (`CATEGORIES` in both scripts). -/
def CATEGORIES : List String :=
  ["Vinyl", "Books", "Posters", "Tees"]

/-- The ordered keyword table (`CATEGORY_KEYWORDS` in both scripts); a
Python dict preserves insertion order, so it is modelled as an association
list in source order. -/
def CATEGORY_KEYWORDS : List (String × String) :=
  [("vinyl", "Vinyl"), ("record", "Vinyl"), ("lp", "Vinyl"),
   ("book", "Books"),
   ("poster", "Posters"), ("print", "Posters"),
   ("tee", "Tees"), ("t-shirt", "Tees"), ("shirt", "Tees")]

/-- The `product_type.lower()` value classified by `classify_line_item`
after `(item.get("product_type") or "").strip()`. -/
def ptNorm (item : LineItem) : String :=
  pyLower (pyStrip (item.product_type.getD ""))

/-- The `(item.get("title") or "").lower()` value used by the title
fallback of `classify_line_item`. -/
def tiNorm (item : LineItem) : String :=
  pyLower (item.title.getD "")

/-- `classify_line_item` (identical in both scripts): exact product-type
match against `CATEGORIES`, then first keyword of `CATEGORY_KEYWORDS`
contained in the lower-cased product type, then first keyword contained in
the lower-cased title, else `none`.  Each `for` loop with an early `return`
is rendered as `List.find?`. -/
def classify_line_item (item : LineItem) : Option String :=
  match CATEGORIES.find? (fun c => ptNorm item == pyLower c) with
  | some c => some c
  | none =>
    match CATEGORY_KEYWORDS.find? (fun kc => pyContains (ptNorm item) kc.1) with
    | some kc => some kc.2
    | none =>
      match CATEGORY_KEYWORDS.find? (fun kc => pyContains (tiNorm item) kc.1) with
      | some kc => some kc.2
      | none => none

/-- `sum_revenue` (identical in both scripts): fold over the orders adding
`Decimal(str(order.get("total_price", "0")))`, skipping orders whose price
string fails to parse (the `try`/`except` in the source). -/
def sum_revenue (orders : List Order) : Rat :=
  orders.foldl
    (fun total order =>
      match pyDecimalParse (order.total_price.getD "0") with
      | some d => total + d
      | none => total)
    0

/-- The quantity of a line item as read by the scripts:
`item.get("quantity", 0)`. -/
def qtyD (item : LineItem) : Nat :=
  item.quantity.getD 0

/-- Add `q` units to key `c` of the category counter (`counts[cat] += ...`;
the key is present for every value `classify_line_item` can return). -/
def bumpCat (counts : List (String × Nat)) (c : String) (q : Nat) : List (String × Nat) :=
  counts.map (fun p => if p.1 = c then (p.1, p.2 + q) else p)

/-- Loop body of `count_units_by_category` for one line item. -/
def countStep (counts : List (String × Nat)) (item : LineItem) : List (String × Nat) :=
  match classify_line_item item with
  | some c => bumpCat counts c (qtyD item)
  | none => counts

/-- `count_units_by_category` from `daily_revenue_report.py`: a dict with
the four fixed categories as keys, initialised to zero, bumped by the
quantity of every classified line item. -/
def count_units_by_category (orders : List Order) : List (String × Nat) :=
  orders.foldl
    (fun counts order => order.line_items.foldl countStep counts)
    (CATEGORIES.map (fun c => (c, 0)))

/-- One entry of the `products` dict built by `top_products`. -/
structure Product where
  title : String
  units : Nat
  revenue : Rat
  category : String
deriving DecidableEq

/-- The dict key used by `top_products`: `item.get("title", "Unknown")`. -/
def effTitle (item : LineItem) : String :=
  item.title.getD "Unknown"

/-- The parsed price of a line item when it parses, else zero; used only in
contexts where the parse is known to succeed. -/
def priceD (item : LineItem) : Rat :=
  (pyDecimalParse (item.price.getD "0")).getD 0

/-- Body of the `top_products` accumulation for one line item once its
price has been parsed: insert a fresh aggregate (with the category of this
first-seen item, `"Other"` when unclassified) if the title is new, then add
the quantity and `price * qty` to the title's aggregate. -/
def updateProducts (acc : List Product) (item : LineItem) (price : Rat) : List Product :=
  (if effTitle item ∈ acc.map Product.title then acc
   else acc ++ [⟨effTitle item, 0, 0, (classify_line_item item).getD "Other"⟩]).map
    (fun p =>
      if p.title = effTitle item
      then ⟨p.title, p.units + qtyD item, p.revenue + price * (qtyD item : Rat), p.category⟩
      else p)

/-- One step of the `top_products` loop.  `Decimal(str(item.get("price",
"0")))` is evaluated outside any `try` block in the source, so a price
string that fails to parse raises and aborts the whole call: modelled by
`none`. -/
def stepItem (acc : List Product) (item : LineItem) : Option (List Product) :=
  match pyDecimalParse (item.price.getD "0") with
  | none => none
  | some price => some (updateProducts acc item price)

/-- The grouping phase of `top_products` (its two nested `for` loops over
orders and line items), building the title-keyed dict in insertion order. -/
def top_products_groups (orders : List Order) : Option (List Product) :=
  orders.foldlM (fun acc order => order.line_items.foldlM stepItem acc) []

/-- Per-item step of the grouping phase with the price parse already known
to succeed; used to state what the grouping computes. -/
def stepPure (acc : List Product) (item : LineItem) : List Product :=
  updateProducts acc item (priceD item)

/-- Total grouping function: what `top_products_groups` returns whenever
every price parses. -/
def groupsPure (items : List LineItem) : List Product :=
  items.foldl stepPure []

/-- The descending-by-units comparison used to sort product aggregates:
`sorted(..., key=lambda p: p["units"], reverse=True)`. -/
def unitsGE (p q : Product) : Prop :=
  q.units ≤ p.units

instance : DecidableRel unitsGE :=
  fun p q => Nat.decLe q.units p.units

instance : IsTotal Product unitsGE :=
  ⟨fun a b => Nat.le_total b.units a.units⟩

instance : IsTrans Product unitsGE :=
  ⟨fun _ _ _ h1 h2 => le_trans h2 h1⟩

/-- `top_products` from `update_ecom_dashboard.py`: group, sort descending
by units and truncate to `n`.  Python's `sorted` is stable also with
`reverse=True`, and a stable sort by a key is uniquely determined by key
order plus stability, so it is modelled by insertion sort with `unitsGE`,
which places an element arriving from earlier in the list before later
elements with equal units. -/
def top_products (orders : List Order) (n : Nat) : Option (List Product) :=
  (top_products_groups orders).map (fun ps => (List.insertionSort unitsGE ps).take n)

/-- The month key `monthly_revenue` derives from an order:
`int(order.get("created_at", "")[5:7])`, `none` when `int` raises. -/
def monthOf (o : Order) : Option Int :=
  pyIntParse (sliceStr (o.created_at.getD "") 5 7)

/-- The `defaultdict` subscript read `by_month[month]`: looking up a
missing key inserts it with the default `0.00`. -/
def touchMonth (m : List (Int × Rat)) (month : Int) : List (Int × Rat) :=
  if month ∈ m.map Prod.fst then m else m ++ [(month, 0)]

/-- Loop body of `monthly_revenue` for one order.  The augmented assignment
`by_month[month] += Decimal(...)` first reads the `defaultdict` entry,
creating the key with value `0.00`, and only then parses the price; an
unparsable price therefore still leaves the key present. -/
def monthStep (m : List (Int × Rat)) (o : Order) : List (Int × Rat) :=
  match monthOf o with
  | none => m
  | some month =>
    match pyDecimalParse (o.total_price.getD "0") with
    | none => touchMonth m month
    | some d => (touchMonth m month).map (fun p => if p.1 = month then (p.1, p.2 + d) else p)

/-- `monthly_revenue` from `update_ecom_dashboard.py`: revenue bucketed by
the two-character month slice of each order's creation timestamp, with
orders whose slice does not parse as an integer skipped. -/
def monthly_revenue (orders : List Order) : List (Int × Rat) :=
  orders.foldl monthStep []

/-- All line items of a list of orders in the traversal order of the
scripts' nested `for` loops (orders first, then each order's items). -/
def allItems (orders : List Order) : List LineItem :=
  orders.flatMap Order.line_items

/-- The revenue contribution of one order to `sum_revenue` and
`monthly_revenue`: its parsed total price, zero when absent (the `"0"`
default) or unparsable (the skipped exception). -/
def contribOf (o : Order) : Rat :=
  (pyDecimalParse (o.total_price.getD "0")).getD 0

/-- The line items grouped under dict key `t` by `top_products`. -/
def titleGroup (items : List LineItem) (t : String) : List LineItem :=
  items.filter (fun i => effTitle i = t)

/-- Total units of the title group of `t`: the sum of the group's
quantities. -/
def unitsSpec (items : List LineItem) (t : String) : Nat :=
  ((titleGroup items t).map qtyD).sum

/-- Total revenue of the title group of `t`: each occurrence's own unit
price times its quantity, summed. -/
def revSpec (items : List LineItem) (t : String) : Rat :=
  ((titleGroup items t).map (fun i => priceD i * (qtyD i : Rat))).sum

/-- Category of the title group of `t`: the classification of the first
line item processed for that title, `"Other"` when unclassified. -/
def catSpec (items : List LineItem) (t : String) : String :=
  match items.find? (fun i => effTitle i = t) with
  | some i => (classify_line_item i).getD "Other"
  | none => "Other"

/-- First occurrences of a list of strings in encounter order, skipping
values already in `seen`; describes the key order of an insertion-ordered
dict. -/
def firstDedup (seen : List String) : List String → List String
  | [] => []
  | t :: rest => if t ∈ seen then firstDedup seen rest else t :: firstDedup (t :: seen) rest

/-- Sum of the per-category unit counts returned by
`count_units_by_category`. -/
def valuesSum (counts : List (String × Nat)) : Nat :=
  (counts.map Prod.snd).sum

/-- Total quantity across a list of line items. -/
def totalQty (items : List LineItem) : Nat :=
  (items.map qtyD).sum

/-- Units contributed to category `c` by the classified line items. -/
def sumQtyCat (items : List LineItem) (c : String) : Nat :=
  ((items.filter (fun i => classify_line_item i = some c)).map qtyD).sum

/-- Units of the line items that received any classification at all. -/
def classifiedQty (items : List LineItem) : Nat :=
  ((items.filter (fun i => (classify_line_item i).isSome)).map qtyD).sum

/-- Revenue accumulated by `monthly_revenue` for month key `k`. -/
def monthTotal (orders : List Order) (k : Int) : Rat :=
  ((orders.filter (fun o => monthOf o = some k)).map contribOf).sum

/-- Orders of the spec's `sum_revenue` scenario: prices `"10.00"`,
`"invalid"` and `"5.50"`. -/
def c4ExOrders : List Order :=
  [⟨none, some "10.00", []⟩, ⟨none, some "invalid", []⟩, ⟨none, some "5.50", []⟩]

/-- Orders of the spec's top-product scenario: two `"Tote Bag"` line items
with quantities 3 and 5 at price `"20.00"`. -/
def toteOrders : List Order :=
  [⟨none, none, [⟨some "Tote Bag", none, some "20.00", some 3⟩,
                 ⟨some "Tote Bag", none, some "20.00", some 5⟩]⟩]

/-- A single order whose only line item carries an unparsable price
string. -/
def badPriceOrders : List Order :=
  [⟨none, none, [⟨some "X", none, some "notanumber", some 1⟩]⟩]

/-- A single order with a malformed creation timestamp whose characters 5-6
read `"13"`. -/
def month13Orders : List Order :=
  [⟨some "2024-13-01T00:00:00-05:00", some "1.00", []⟩]

/-- A well-formed March order. -/
def marchOrder : Order :=
  ⟨some "2024-03-15T00:00:00-05:00", some "7.00", []⟩

/-- Order list holding just the March order. -/
def marchOrders : List Order :=
  [marchOrder]

/-- An order whose only line item is unclassifiable and has quantity
zero. -/
def zeroQtyOrders : List Order :=
  [⟨none, none, [⟨some "Gift Card", none, none, some 0⟩]⟩]

/-- An order whose only line item is unclassifiable with positive
quantity. -/
def giftOrders : List Order :=
  [⟨none, none, [⟨some "Gift Card", none, none, some 5⟩]⟩]

/-- An order with one line item classified as Vinyl via the title keyword
`"lp"`, quantity 2 (the spec's classification scenario). -/
def vinylOrders : List Order :=
  [⟨none, none, [⟨some "Abbey Road LP", none, none, some 2⟩]⟩]

/-- A line item whose product type matches a category exactly while its
title contains a keyword of a different category. -/
def itemTees : LineItem :=
  ⟨some "Abbey Road LP", some "  TEES  ", none, some 1⟩

/-- A line item with an empty product type classified through the title
keyword fallback. -/
def itemAbbey : LineItem :=
  ⟨some "Abbey Road LP", some "", none, some 2⟩

/-- Line-item-free order with total price `"10.00"`. -/
def oTen : Order :=
  ⟨none, some "10.00", []⟩

/-- Line-item-free order with total price `"5.50"`. -/
def oFive : Order :=
  ⟨none, some "5.50", []⟩

/-- Orders mixing absent titles with an explicit `"Unknown"` title. -/
def unkOrders : List Order :=
  [⟨none, none, [⟨none, none, some "1", some 2⟩,
                 ⟨some "Unknown", none, some "2", some 3⟩,
                 ⟨none, none, some "4", some 1⟩]⟩]


/-- Parsing the default string `"0"` yields the decimal zero. -/
theorem pyDecimalParse_zero : pyDecimalParse "0" = some 0 := by
  show (some (((0 : Nat) : Rat) / (10 : Rat) ^ (0 : Nat)) : Option Rat) = some 0
  rw [Option.some.injEq]
  norm_num

/-- Parsing `"10.00"`. -/
theorem pd_ten : pyDecimalParse "10.00" = some 10 := by
  show (some (((1000 : Nat) : Rat) / (10 : Rat) ^ (2 : Nat)) : Option Rat) = some 10
  rw [Option.some.injEq]
  norm_num

/-- Parsing `"5.50"`. -/
theorem pd_five : pyDecimalParse "5.50" = some (11 / 2) := by
  show (some (((550 : Nat) : Rat) / (10 : Rat) ^ (2 : Nat)) : Option Rat) = some (11 / 2)
  rw [Option.some.injEq]
  norm_num

/-- Parsing `"20.00"`. -/
theorem pd_twenty : pyDecimalParse "20.00" = some 20 := by
  show (some (((2000 : Nat) : Rat) / (10 : Rat) ^ (2 : Nat)) : Option Rat) = some 20
  rw [Option.some.injEq]
  norm_num

/-- Parsing `"1.00"`. -/
theorem pd_one : pyDecimalParse "1.00" = some 1 := by
  show (some (((100 : Nat) : Rat) / (10 : Rat) ^ (2 : Nat)) : Option Rat) = some 1
  rw [Option.some.injEq]
  norm_num

/-- Parsing `"7.00"`. -/
theorem pd_seven : pyDecimalParse "7.00" = some 7 := by
  show (some (((700 : Nat) : Rat) / (10 : Rat) ^ (2 : Nat)) : Option Rat) = some 7
  rw [Option.some.injEq]
  norm_num

/-- Parsing the digit string `"1"`. -/
theorem pd_d1 : pyDecimalParse "1" = some 1 := by
  show (some (((1 : Nat) : Rat) / (10 : Rat) ^ (0 : Nat)) : Option Rat) = some 1
  rw [Option.some.injEq]
  norm_num

/-- Parsing the digit string `"2"`. -/
theorem pd_d2 : pyDecimalParse "2" = some 2 := by
  show (some (((2 : Nat) : Rat) / (10 : Rat) ^ (0 : Nat)) : Option Rat) = some 2
  rw [Option.some.injEq]
  norm_num

/-- Parsing the digit string `"4"`. -/
theorem pd_d4 : pyDecimalParse "4" = some 4 := by
  show (some (((4 : Nat) : Rat) / (10 : Rat) ^ (0 : Nat)) : Option Rat) = some 4
  rw [Option.some.injEq]
  norm_num

/-- The string `"invalid"` fails to parse. -/
theorem pd_invalid : pyDecimalParse "invalid" = none := rfl

/-- The string `"notanumber"` fails to parse. -/
theorem pd_notanumber : pyDecimalParse "notanumber" = none := rfl

/-- One step of the `sum_revenue` fold adds the order's contribution. -/
theorem sum_step_eq (total : Rat) (o : Order) :
    (match pyDecimalParse (o.total_price.getD "0") with
      | some d => total + d
      | none => total) = total + contribOf o := by
  unfold contribOf
  cases h : pyDecimalParse (o.total_price.getD "0") <;> simp [h]

/-- The `sum_revenue` fold from any accumulator adds the contribution
sum. -/
theorem sum_revenue_foldl (l : List Order) (a : Rat) :
    l.foldl (fun total order =>
      match pyDecimalParse (order.total_price.getD "0") with
      | some d => total + d
      | none => total) a = a + (l.map contribOf).sum := by
  induction l generalizing a with
  | nil => simp
  | cons o rest ih =>
    simp only [List.foldl_cons, List.map_cons, List.sum_cons]
    rw [sum_step_eq, ih, add_assoc]

/-- `sum_revenue` equals the sum of the per-order contributions. -/
theorem sum_revenue_eq (l : List Order) : sum_revenue l = (l.map contribOf).sum := by
  unfold sum_revenue
  rw [sum_revenue_foldl, zero_add]

/-- The contribution sum keeps exactly the present, parseable prices. -/
theorem contrib_filterMap (l : List Order) :
    (l.map contribOf).sum = (l.filterMap (fun o => o.total_price.bind pyDecimalParse)).sum := by
  induction l with
  | nil => rfl
  | cons o rest ih =>
    simp only [List.map_cons, List.sum_cons, List.filterMap_cons]
    cases hp : o.total_price with
    | none =>
      rw [show contribOf o = 0 from by simp [contribOf, hp, pyDecimalParse_zero]]
      simp only [hp, Option.none_bind]
      rw [ih, zero_add]
    | some s =>
      cases hq : pyDecimalParse s with
      | none =>
        rw [show contribOf o = 0 from by simp [contribOf, hp, hq]]
        simp only [hp, Option.some_bind, hq]
        rw [ih, zero_add]
      | some q =>
        rw [show contribOf o = q from by simp [contribOf, hp, hq]]
        simp only [hp, Option.some_bind, hq, List.sum_cons]
        rw [ih]

/-- C4: for every list of orders, `sum_revenue` returns the fixed-point
decimal sum of the `total_price` fields of exactly those orders whose
`total_price` is present and parseable as a decimal; a missing or
unparsable `total_price` contributes zero and is silently skipped (the
model is a total function, so no such record can make it fail).  The
orders of the spec scenario with prices `"10.00"`, `"invalid"` and
`"5.50"` sum to `15.50`. -/
theorem c4_sum_revenue_skips_malformed :
    (∀ orders : List Order,
        sum_revenue orders
          = (orders.filterMap (fun o => o.total_price.bind pyDecimalParse)).sum)
    ∧ sum_revenue c4ExOrders = 15.5 := by
  constructor
  · intro orders
    rw [sum_revenue_eq, contrib_filterMap]
  · rw [sum_revenue_eq]
    unfold c4ExOrders contribOf
    simp only [List.map_cons, List.map_nil, List.sum_cons, List.sum_nil, Option.getD_some]
    rw [pd_ten, pd_invalid, pd_five]
    norm_num

/-- C9: `sum_revenue` is invariant under permutation of the order list,
yields exactly zero on the empty list, and is non-negative whenever every
order's parseable total price is non-negative. -/
theorem c9_sum_revenue_algebraic :
    (∀ l₁ l₂ : List Order, l₁.Perm l₂ → sum_revenue l₁ = sum_revenue l₂)
    ∧ sum_revenue [] = 0
    ∧ (∀ orders : List Order,
        (∀ o ∈ orders, ∀ s q, o.total_price = some s → pyDecimalParse s = some q → 0 ≤ q) →
        0 ≤ sum_revenue orders) := by
  refine ⟨fun l₁ l₂ h => ?_, rfl, fun orders h => ?_⟩
  · rw [sum_revenue_eq, sum_revenue_eq]
    exact (h.map contribOf).sum_eq
  · rw [sum_revenue_eq]
    apply List.sum_nonneg
    intro x hx
    rcases List.mem_map.mp hx with ⟨o, ho, rfl⟩
    unfold contribOf
    cases hp : o.total_price with
    | none => simp [hp, pyDecimalParse_zero]
    | some s =>
      cases hq : pyDecimalParse s with
      | none => simp [hp, hq]
      | some q =>
        simp only [hp, hq, Option.getD_some]
        exact h o ho s q hp hq

/-- Witness for C9 at concrete orders: a transposed two-order list and a
single non-negative order. -/
theorem c9_witness :
    sum_revenue [oTen, oFive] = sum_revenue [oFive, oTen] ∧ 0 ≤ sum_revenue [oTen] := by
  constructor
  · exact c9_sum_revenue_algebraic.1 _ _ (List.Perm.swap oFive oTen [])
  · apply c9_sum_revenue_algebraic.2.2
    intro o ho s q hs hq
    have ho' : o = oTen := by simpa using ho
    subst ho'
    rw [show oTen.total_price = some "10.00" from rfl] at hs
    have hs' : s = "10.00" := (Option.some.inj hs).symm
    subst hs'
    rw [pd_ten] at hq
    have hq' : (10 : Rat) = q := Option.some.inj hq
    rw [← hq']
    norm_num

/-- In a list whose lower-cased members are distinct, the exact-match scan
finds precisely the member whose lower-cased form equals the probe. -/
theorem find?_lower (x : String) (l : List String) (hnd : (l.map pyLower).Nodup)
    (cat : String) (hmem : cat ∈ l) (hx : x = pyLower cat) :
    l.find? (fun c => x == pyLower c) = some cat := by
  induction l with
  | nil => cases hmem
  | cons c rest ih =>
    simp only [List.map_cons, List.nodup_cons] at hnd
    by_cases hc : x = pyLower c
    · have hfind : (c :: rest).find? (fun c => x == pyLower c) = some c := by
        rw [List.find?_cons_of_pos]
        simp [hc]
      rcases List.mem_cons.mp hmem with rfl | hmemr
      · exact hfind
      · exfalso
        apply hnd.1
        have hcc : pyLower c = pyLower cat := hc.symm.trans hx
        rw [hcc]
        exact List.mem_map_of_mem pyLower hmemr
    · rw [List.find?_cons_of_neg]
      · apply ih hnd.2
        rcases List.mem_cons.mp hmem with rfl | hmemr
        · exact absurd hx hc
        · exact hmemr
      · simp [hc]

/-- The keyword scan returns the first table entry whose keyword occurs in
the probe string. -/
theorem find?_table (x : String) (l₁ : List (String × String)) (k c : String)
    (l₂ : List (String × String)) (h1 : ∀ kc ∈ l₁, ¬ pyContains x kc.1)
    (hk : pyContains x k) :
    (l₁ ++ (k, c) :: l₂).find? (fun kc => pyContains x kc.1) = some (k, c) := by
  rw [List.find?_append, List.find?_eq_none.mpr h1]
  simp only [Option.none_or]
  rw [List.find?_cons_of_pos]
  exact hk

/-- C1: `classify_line_item` is a deterministic pure function of its line
item (it is a Lean function) following strict precedence: (1) a trimmed
lower-cased product type equal to a lower-cased fixed category name
returns that category, even when a title keyword would map elsewhere;
(2) otherwise the first keyword of the table, in table order, occurring in
the lower-cased product type wins; (3) otherwise the first keyword
occurring in the lower-cased title wins; (4) otherwise the item is
unclassified (`none`). -/
theorem c1_classify_precedence (item : LineItem) :
    (∀ cat ∈ CATEGORIES, ptNorm item = pyLower cat → classify_line_item item = some cat)
    ∧ (∀ l₁ k c l₂, CATEGORY_KEYWORDS = l₁ ++ (k, c) :: l₂ →
        (∀ kc ∈ l₁, ¬ pyContains (ptNorm item) kc.1) →
        pyContains (ptNorm item) k →
        (∀ cat ∈ CATEGORIES, ptNorm item ≠ pyLower cat) →
        classify_line_item item = some c)
    ∧ (∀ l₁ k c l₂, CATEGORY_KEYWORDS = l₁ ++ (k, c) :: l₂ →
        (∀ kc ∈ l₁, ¬ pyContains (tiNorm item) kc.1) →
        pyContains (tiNorm item) k →
        (∀ cat ∈ CATEGORIES, ptNorm item ≠ pyLower cat) →
        (∀ kc ∈ CATEGORY_KEYWORDS, ¬ pyContains (ptNorm item) kc.1) →
        classify_line_item item = some c)
    ∧ ((∀ cat ∈ CATEGORIES, ptNorm item ≠ pyLower cat) →
        (∀ kc ∈ CATEGORY_KEYWORDS, ¬ pyContains (ptNorm item) kc.1) →
        (∀ kc ∈ CATEGORY_KEYWORDS, ¬ pyContains (tiNorm item) kc.1) →
        classify_line_item item = none) := by
  refine ⟨fun cat hmem hx => ?_, fun l₁ k c l₂ htab h1 hk hno => ?_,
    fun l₁ k c l₂ htab h1 hk hno hnopt => ?_, fun hno hnopt hnoti => ?_⟩
  · unfold classify_line_item
    rw [find?_lower (ptNorm item) CATEGORIES (by decide) cat hmem hx]
  · have hnone : CATEGORIES.find? (fun c => ptNorm item == pyLower c) = none :=
      List.find?_eq_none.mpr (fun a ha => by
        simp only [beq_iff_eq]
        exact hno a ha)
    unfold classify_line_item
    simp only [hnone]
    rw [htab]
    simp only [find?_table (ptNorm item) l₁ k c l₂ h1 hk]
  · have hnone : CATEGORIES.find? (fun c => ptNorm item == pyLower c) = none :=
      List.find?_eq_none.mpr (fun a ha => by
        simp only [beq_iff_eq]
        exact hno a ha)
    have hnone2 : CATEGORY_KEYWORDS.find? (fun kc => pyContains (ptNorm item) kc.1) = none :=
      List.find?_eq_none.mpr hnopt
    unfold classify_line_item
    simp only [hnone, hnone2]
    rw [htab]
    simp only [find?_table (tiNorm item) l₁ k c l₂ h1 hk]
  · have hnone : CATEGORIES.find? (fun c => ptNorm item == pyLower c) = none :=
      List.find?_eq_none.mpr (fun a ha => by
        simp only [beq_iff_eq]
        exact hno a ha)
    have hnone2 : CATEGORY_KEYWORDS.find? (fun kc => pyContains (ptNorm item) kc.1) = none :=
      List.find?_eq_none.mpr hnopt
    have hnone3 : CATEGORY_KEYWORDS.find? (fun kc => pyContains (tiNorm item) kc.1) = none :=
      List.find?_eq_none.mpr hnoti
    unfold classify_line_item
    simp only [hnone, hnone2, hnone3]

/-- Witness for C1: a product type reading `"  TEES  "` classifies as
`Tees` although the title contains the Vinyl keyword `"lp"`, and an item
with empty product type falls through to the title keyword `"lp"` and
classifies as `Vinyl`. -/
theorem c1_witness :
    classify_line_item itemTees = some "Tees"
    ∧ classify_line_item itemAbbey = some "Vinyl" := by
  constructor
  · exact (c1_classify_precedence itemTees).1 "Tees" (by decide) (by decide)
  · exact (c1_classify_precedence itemAbbey).2.2.1
      [("vinyl", "Vinyl"), ("record", "Vinyl")] "lp" "Vinyl"
      [("book", "Books"), ("poster", "Posters"), ("print", "Posters"),
       ("tee", "Tees"), ("t-shirt", "Tees"), ("shirt", "Tees")]
      rfl (by decide) (by decide) (by decide) (by decide)

/-- A nested fold over orders and their line items is the fold over the
flattened item list. -/
theorem foldl_nested {α β σ : Type} (g : α → List β) (f : σ → β → σ) (l : List α) (init : σ) :
    l.foldl (fun s a => (g a).foldl f s) init = (l.flatMap g).foldl f init := by
  induction l generalizing init with
  | nil => rfl
  | cons a rest ih =>
    simp only [List.foldl_cons, List.flatMap_cons, List.foldl_append]
    exact ih _

/-- Every category `classify_line_item` can return belongs to
`CATEGORIES`. -/
theorem classify_mem {item : LineItem} {cat : String}
    (h : classify_line_item item = some cat) : cat ∈ CATEGORIES := by
  have hkw : ∀ kc ∈ CATEGORY_KEYWORDS, kc.2 ∈ CATEGORIES := by decide
  unfold classify_line_item at h
  cases h1 : CATEGORIES.find? (fun c => ptNorm item == pyLower c) with
  | some c =>
    simp only [h1] at h
    injection h with h'
    exact h' ▸ List.mem_of_find?_eq_some h1
  | none =>
    simp only [h1] at h
    cases h2 : CATEGORY_KEYWORDS.find? (fun kc => pyContains (ptNorm item) kc.1) with
    | some kc =>
      simp only [h2] at h
      injection h with h'
      exact h' ▸ hkw kc (List.mem_of_find?_eq_some h2)
    | none =>
      simp only [h2] at h
      cases h3 : CATEGORY_KEYWORDS.find? (fun kc => pyContains (tiNorm item) kc.1) with
      | some kc =>
        simp only [h3] at h
        injection h with h'
        exact h' ▸ hkw kc (List.mem_of_find?_eq_some h3)
      | none =>
        simp only [h3] at h
        exact absurd h (by simp)

/-- Unfolding `sumQtyCat` over the head of the item list. -/
theorem sumQtyCat_cons (i : LineItem) (rest : List LineItem) (c : String) :
    sumQtyCat (i :: rest) c
      = (if classify_line_item i = some c then qtyD i else 0) + sumQtyCat rest c := by
  unfold sumQtyCat
  by_cases h : classify_line_item i = some c <;> simp [List.filter_cons, h]

/-- `bumpCat` on a counter in canonical map form. -/
theorem bumpCat_map (f : String → Nat) (cat : String) (q : Nat) :
    bumpCat (CATEGORIES.map (fun c => (c, f c))) cat q
      = CATEGORIES.map (fun c => (c, if c = cat then f c + q else f c)) := by
  unfold bumpCat
  rw [List.map_map]
  apply List.map_congr_left
  intro c _
  by_cases h : c = cat <;> simp [h]

/-- `countStep` on a counter in canonical map form. -/
theorem countStep_map (f : String → Nat) (i : LineItem) :
    countStep (CATEGORIES.map (fun c => (c, f c))) i
      = CATEGORIES.map (fun c =>
          (c, f c + if classify_line_item i = some c then qtyD i else 0)) := by
  cases hcl : classify_line_item i with
  | none =>
    rw [show countStep (CATEGORIES.map (fun c => (c, f c))) i
        = CATEGORIES.map (fun c => (c, f c)) from by unfold countStep; rw [hcl]]
    apply List.map_congr_left
    intro c _
    simp
  | some cat =>
    rw [show countStep (CATEGORIES.map (fun c => (c, f c))) i
        = bumpCat (CATEGORIES.map (fun c => (c, f c))) cat (qtyD i) from by
      unfold countStep; rw [hcl]]
    rw [bumpCat_map]
    apply List.map_congr_left
    intro c _
    by_cases h : c = cat
    · subst h
      simp
    · simp only [Option.some.injEq]
      rw [if_neg h, if_neg (fun hh : cat = c => h hh.symm), Nat.add_zero]

/-- The `count_units_by_category` fold over any starting counter in
canonical map form. -/
theorem countFold_map (items : List LineItem) (f : String → Nat) :
    items.foldl countStep (CATEGORIES.map (fun c => (c, f c)))
      = CATEGORIES.map (fun c => (c, f c + sumQtyCat items c)) := by
  induction items generalizing f with
  | nil =>
    simp only [List.foldl_nil]
    apply List.map_congr_left
    intro c _
    simp [sumQtyCat]
  | cons i rest ih =>
    simp only [List.foldl_cons]
    rw [countStep_map, ih]
    apply List.map_congr_left
    intro c _
    rw [sumQtyCat_cons]
    simp [Nat.add_assoc]

/-- Closed form of `count_units_by_category`. -/
theorem count_units_eq (orders : List Order) :
    count_units_by_category orders
      = CATEGORIES.map (fun c => (c, sumQtyCat (allItems orders) c)) := by
  unfold count_units_by_category allItems
  rw [foldl_nested Order.line_items countStep]
  have h := countFold_map (orders.flatMap Order.line_items) (fun _ => 0)
  simpa using h

/-- C7: for every list of orders (including the empty list), the counter
returned by `count_units_by_category` has exactly the four fixed
categories as keys, each holding the (necessarily non-negative) sum of the
quantities of the line items classified into it; unclassified line items
contribute to no key. -/
theorem c7_count_units_by_category (orders : List Order) :
    (count_units_by_category orders).map Prod.fst = CATEGORIES
    ∧ ∀ cat units, (cat, units) ∈ count_units_by_category orders →
        units = sumQtyCat (allItems orders) cat := by
  constructor
  · rw [count_units_eq]
    rfl
  · intro cat units hmem
    rw [count_units_eq] at hmem
    rcases List.mem_map.mp hmem with ⟨c, _, heq⟩
    injection heq with h1 h2
    subst h1
    exact h2.symm

/-- Witness for C7 at a one-order input with one Vinyl line item. -/
theorem c7_witness :
    (count_units_by_category vinylOrders).map Prod.fst = CATEGORIES
    ∧ (2 : Nat) = sumQtyCat (allItems vinylOrders) "Vinyl" :=
  ⟨(c7_count_units_by_category vinylOrders).1,
   (c7_count_units_by_category vinylOrders).2 "Vinyl" 2 (by decide)⟩

/-- Sums of pointwise sums of natural-valued maps split. -/
theorem sum_map_add {α : Type} (l : List α) (f g : α → Nat) :
    (l.map (fun a => f a + g a)).sum = (l.map f).sum + (l.map g).sum := by
  induction l with
  | nil => rfl
  | cons a rest ih =>
    simp only [List.map_cons, List.sum_cons, ih]
    omega

/-- Summing an indicator map over a duplicate-free list containing the
marked element yields the marked value. -/
theorem sum_if_single (l : List String) (a : String) (q : Nat) (hnd : l.Nodup) (hmem : a ∈ l) :
    (l.map (fun c => if c = a then q else 0)).sum = q := by
  induction l with
  | nil => cases hmem
  | cons b rest ih =>
    simp only [List.map_cons, List.sum_cons]
    rcases List.mem_cons.mp hmem with heq | hmemr
    · rw [if_pos heq.symm]
      have hz : (rest.map (fun c => if c = a then q else 0)).sum = 0 := by
        apply List.sum_eq_zero
        intro x hx
        rcases List.mem_map.mp hx with ⟨c, hc, rfl⟩
        rw [if_neg]
        intro hca
        have ha : a ∈ rest := hca ▸ hc
        exact (List.nodup_cons.mp hnd).1 (heq ▸ ha)
      rw [hz]
      omega
    · have hb : b ≠ a := fun hba => (List.nodup_cons.mp hnd).1 (hba ▸ hmemr)
      rw [if_neg hb, ih (List.nodup_cons.mp hnd).2 hmemr, Nat.zero_add]

/-- Unfolding `classifiedQty` over the head of the item list. -/
theorem classifiedQty_cons (i : LineItem) (rest : List LineItem) :
    classifiedQty (i :: rest)
      = (if (classify_line_item i).isSome then qtyD i else 0) + classifiedQty rest := by
  unfold classifiedQty
  by_cases h : (classify_line_item i).isSome <;> simp [List.filter_cons, h]

/-- The per-category unit counts add up to the classified quantity. -/
theorem sum_sumQtyCat (items : List LineItem) :
    (CATEGORIES.map (fun c => sumQtyCat items c)).sum = classifiedQty items := by
  induction items with
  | nil => simp [sumQtyCat, classifiedQty, titleGroup]
  | cons i rest ih =>
    rw [show CATEGORIES.map (fun c => sumQtyCat (i :: rest) c)
        = CATEGORIES.map (fun c =>
            (if classify_line_item i = some c then qtyD i else 0) + sumQtyCat rest c) from
      List.map_congr_left (fun c _ => sumQtyCat_cons i rest c)]
    rw [sum_map_add, ih, classifiedQty_cons]
    congr 1
    cases hcl : classify_line_item i with
    | none =>
      rw [show (if (none : Option String).isSome = true then qtyD i else 0) = 0 from rfl]
      apply List.sum_eq_zero
      intro x hx
      rcases List.mem_map.mp hx with ⟨c, _, rfl⟩
      simp
    | some cat =>
      rw [show (if (some cat).isSome = true then qtyD i else 0) = qtyD i from rfl]
      rw [show CATEGORIES.map (fun c => if some cat = some c then qtyD i else 0)
          = CATEGORIES.map (fun c => if c = cat then qtyD i else 0) from
        List.map_congr_left (fun c _ => by
          by_cases h : c = cat
          · subst h; simp
          · rw [if_neg (fun hh : some cat = some c => h (Option.some.inj hh).symm), if_neg h])]
      exact sum_if_single CATEGORIES cat (qtyD i) (by decide) (classify_mem hcl)

/-- Classified units never exceed total units, strictly so as soon as an
unclassified item has positive quantity. -/
theorem classifiedQty_le (items : List LineItem) :
    classifiedQty items ≤ totalQty items
    ∧ ∀ i ∈ items, classify_line_item i = none → 0 < qtyD i →
        classifiedQty items < totalQty items := by
  induction items with
  | nil =>
    refine ⟨le_refl _, fun i hi => absurd hi (List.not_mem_nil i)⟩
  | cons j rest ih =>
    rw [classifiedQty_cons, show totalQty (j :: rest) = qtyD j + totalQty rest from by
      simp [totalQty]]
    have hj : (if (classify_line_item j).isSome then qtyD j else 0) ≤ qtyD j := by
      split <;> omega
    constructor
    · have := ih.1
      omega
    · intro i hi hnone hpos
      rcases List.mem_cons.mp hi with rfl | hir
      · rw [show (if (classify_line_item i).isSome = true then qtyD i else 0) = 0 from by
          simp [hnone]]
        have := ih.1
        omega
      · have := ih.2 i hir hnone hpos
        omega

/-- C8 (amended): for every list of orders, the sum of the per-category
unit counts is at most the total quantity across all line items, and the
inequality is strict whenever some unclassified line item has positive
quantity.  (As literally stated the claim asks for strictness whenever any
unclassified item exists, which fails for an unclassified item of quantity
zero — see the counterexample.) -/
theorem c8_count_bound (orders : List Order) :
    valuesSum (count_units_by_category orders) ≤ totalQty (allItems orders)
    ∧ ((∃ i ∈ allItems orders, classify_line_item i = none ∧ 0 < qtyD i) →
        valuesSum (count_units_by_category orders) < totalQty (allItems orders)) := by
  have hv : valuesSum (count_units_by_category orders) = classifiedQty (allItems orders) := by
    unfold valuesSum
    rw [count_units_eq, List.map_map]
    rw [show (Prod.snd ∘ fun c => (c, sumQtyCat (allItems orders) c))
        = fun c => sumQtyCat (allItems orders) c from rfl]
    exact sum_sumQtyCat (allItems orders)
  rw [hv]
  refine ⟨(classifiedQty_le _).1, fun h => ?_⟩
  rcases h with ⟨i, hi, hnone, hpos⟩
  exact (classifiedQty_le _).2 i hi hnone hpos

/-- Witness for C8 at an order whose unclassifiable line item has
quantity 5. -/
theorem c8_witness :
    valuesSum (count_units_by_category giftOrders) < totalQty (allItems giftOrders) :=
  (c8_count_bound giftOrders).2
    ⟨⟨some "Gift Card", none, none, some 5⟩, by decide, by decide, by decide⟩

/-- Counterexample for C8 as stated: with a single unclassified line item
of quantity zero the counted units equal the total quantity, so the
claimed strict inequality fails although an unclassified item exists. -/
theorem c8_counterexample :
    (∃ i ∈ allItems zeroQtyOrders, classify_line_item i = none)
    ∧ ¬ (valuesSum (count_units_by_category zeroQtyOrders) < totalQty (allItems zeroQtyOrders)) := by
  constructor
  · exact ⟨⟨some "Gift Card", none, none, some 0⟩, by decide, by decide⟩
  · decide

/-- A contribution is zero when the price string fails to parse. -/
theorem contribOf_none {o : Order} (h : pyDecimalParse (o.total_price.getD "0") = none) :
    contribOf o = 0 := by
  unfold contribOf
  rw [h]
  rfl

/-- A contribution is the parsed price when it parses. -/
theorem contribOf_some {o : Order} {d : Rat}
    (h : pyDecimalParse (o.total_price.getD "0") = some d) : contribOf o = d := by
  unfold contribOf
  rw [h]
  rfl

/-- Key list of a touched month counter. -/
theorem touch_fst (m : List (Int × Rat)) (month : Int) :
    (touchMonth m month).map Prod.fst
      = if month ∈ m.map Prod.fst then m.map Prod.fst else m.map Prod.fst ++ [month] := by
  unfold touchMonth
  by_cases h : month ∈ m.map Prod.fst <;> simp [h]

/-- Membership in a touched month counter. -/
theorem mem_touch (m : List (Int × Rat)) (month : Int) (kv : Int × Rat) :
    kv ∈ touchMonth m month ↔ kv ∈ m ∨ (month ∉ m.map Prod.fst ∧ kv = (month, 0)) := by
  unfold touchMonth
  by_cases h : month ∈ m.map Prod.fst <;> simp [h]

/-- The value-update map of `monthStep` leaves the key list unchanged. -/
theorem mapAdd_fst (m : List (Int × Rat)) (month : Int) (d : Rat) :
    (m.map (fun p => if p.1 = month then (p.1, p.2 + d) else p)).map Prod.fst
      = m.map Prod.fst := by
  rw [List.map_map]
  apply List.map_congr_left
  intro p _
  by_cases h : p.1 = month <;> simp [h]

/-- Inverting membership in the value-update map of `monthStep`. -/
theorem mem_mapAdd (m : List (Int × Rat)) (month : Int) (d : Rat) (kv : Int × Rat)
    (h : kv ∈ m.map (fun p => if p.1 = month then (p.1, p.2 + d) else p)) :
    ∃ p ∈ m, (p.1 = month ∧ kv = (p.1, p.2 + d)) ∨ (p.1 ≠ month ∧ kv = p) := by
  rcases List.mem_map.mp h with ⟨p, hp, heq⟩
  by_cases hm : p.1 = month
  · exact ⟨p, hp, Or.inl ⟨hm, by rw [← heq, if_pos hm]⟩⟩
  · exact ⟨p, hp, Or.inr ⟨hm, by rw [← heq, if_neg hm]⟩⟩

/-- `monthTotal` over a list extended by one order. -/
theorem monthTotal_append (orders : List Order) (o : Order) (k : Int) :
    monthTotal (orders ++ [o]) k
      = monthTotal orders k + (if monthOf o = some k then contribOf o else 0) := by
  unfold monthTotal
  rw [List.filter_append]
  by_cases h : monthOf o = some k <;> simp [h]

/-- `monthTotal` vanishes for a month no order maps to. -/
theorem monthTotal_zero (orders : List Order) (k : Int)
    (h : ∀ o ∈ orders, ¬ monthOf o = some k) : monthTotal orders k = 0 := by
  unfold monthTotal
  have hnil : orders.filter (fun o => monthOf o = some k) = [] := by
    induction orders with
    | nil => rfl
    | cons o rest ih =>
      rw [List.filter_cons_of_neg]
      · exact ih (fun o' ho' => h o' (List.mem_cons_of_mem o ho'))
      · simpa using h o (List.mem_cons_self o rest)
  rw [hnil]
  rfl

/-- `monthly_revenue` over a list extended by one order. -/
theorem monthly_append (orders : List Order) (o : Order) :
    monthly_revenue (orders ++ [o]) = monthStep (monthly_revenue orders) o := by
  unfold monthly_revenue
  rw [List.foldl_append]
  rfl

/-- Key distinctness, key provenance and per-key value of
`monthly_revenue`. -/
theorem monthly_spec (orders : List Order) :
    ((monthly_revenue orders).map Prod.fst).Nodup
    ∧ (∀ k : Int, k ∈ (monthly_revenue orders).map Prod.fst ↔ ∃ o ∈ orders, monthOf o = some k)
    ∧ ∀ kv ∈ monthly_revenue orders, kv.2 = monthTotal orders kv.1 := by
  induction orders using List.reverseRecOn with
  | nil =>
    refine ⟨List.nodup_nil, fun k => ?_, fun kv hkv => absurd hkv (List.not_mem_nil kv)⟩
    simp [monthly_revenue]
  | append_singleton orders o ih =>
    obtain ⟨ihn, ihm, ihv⟩ := ih
    rw [monthly_append]
    have hmem_ext : ∀ k : Int, (∃ o' ∈ orders ++ [o], monthOf o' = some k)
        ↔ (∃ o' ∈ orders, monthOf o' = some k) ∨ monthOf o = some k := by
      intro k
      constructor
      · rintro ⟨o', ho', h⟩
        rcases List.mem_append.mp ho' with h1 | h1
        · exact Or.inl ⟨o', h1, h⟩
        · have heq : o' = o := by simpa using h1
          exact Or.inr (heq ▸ h)
      · rintro (⟨o', ho', h⟩ | h)
        · exact ⟨o', List.mem_append_left _ ho', h⟩
        · exact ⟨o, List.mem_append_right _ (by simp), h⟩
    cases hmo : monthOf o with
    | none =>
      rw [show monthStep (monthly_revenue orders) o = monthly_revenue orders from by
        unfold monthStep; rw [hmo]]
      refine ⟨ihn, fun k => ?_, fun kv hkv => ?_⟩
      · rw [ihm k, hmem_ext k, hmo]
        simp
      · rw [monthTotal_append, hmo, if_neg (by simp), add_zero]
        exact ihv kv hkv
    | some month =>
      have htouch_nodup : ((touchMonth (monthly_revenue orders) month).map Prod.fst).Nodup := by
        rw [touch_fst]
        by_cases h : month ∈ (monthly_revenue orders).map Prod.fst
        · rw [if_pos h]; exact ihn
        · rw [if_neg h]
          simp [List.nodup_append, ihn, h]
      have htouch_mem : ∀ k : Int, k ∈ (touchMonth (monthly_revenue orders) month).map Prod.fst
          ↔ k ∈ (monthly_revenue orders).map Prod.fst ∨ k = month := by
        intro k
        rw [touch_fst]
        by_cases h : month ∈ (monthly_revenue orders).map Prod.fst
        · rw [if_pos h]
          constructor
          · exact Or.inl
          · rintro (hk | rfl)
            · exact hk
            · exact h
        · rw [if_neg h]
          simp
      have hval_touch : ∀ kv ∈ touchMonth (monthly_revenue orders) month,
          kv.2 = monthTotal orders kv.1 := by
        intro kv hkv
        rcases (mem_touch _ _ kv).mp hkv with h | ⟨hfresh, rfl⟩
        · exact ihv kv h
        · have hnot : ∀ o' ∈ orders, ¬ monthOf o' = some month := by
            intro o' ho' hcon
            exact hfresh ((ihm month).mpr ⟨o', ho', hcon⟩)
          exact (monthTotal_zero orders month hnot).symm
      cases hpd : pyDecimalParse (o.total_price.getD "0") with
      | none =>
        rw [show monthStep (monthly_revenue orders) o
            = touchMonth (monthly_revenue orders) month from by
          unfold monthStep; rw [hmo, hpd]]
        refine ⟨htouch_nodup, fun k => ?_, fun kv hkv => ?_⟩
        · rw [htouch_mem k, hmem_ext k, ihm k, hmo]
          constructor
          · rintro (hk | rfl)
            · exact Or.inl hk
            · exact Or.inr rfl
          · rintro (hk | hk)
            · exact Or.inl hk
            · exact Or.inr (Option.some.inj hk).symm
        · rw [monthTotal_append, hmo, contribOf_none hpd]
          rw [show (if (some month : Option Int) = some kv.1 then (0 : Rat) else 0) = 0 from by
            split <;> rfl]
          rw [add_zero]
          exact hval_touch kv hkv
      | some d =>
        rw [show monthStep (monthly_revenue orders) o
            = (touchMonth (monthly_revenue orders) month).map
                (fun p => if p.1 = month then (p.1, p.2 + d) else p) from by
          unfold monthStep; rw [hmo, hpd]]
        refine ⟨?_, fun k => ?_, fun kv hkv => ?_⟩
        · rw [mapAdd_fst]
          exact htouch_nodup
        · rw [mapAdd_fst, htouch_mem k, hmem_ext k, ihm k, hmo]
          constructor
          · rintro (hk | rfl)
            · exact Or.inl hk
            · exact Or.inr rfl
          · rintro (hk | hk)
            · exact Or.inl hk
            · exact Or.inr (Option.some.inj hk).symm
        · rcases mem_mapAdd _ _ _ kv hkv with ⟨p, hp, hcase⟩
          have hpv : p.2 = monthTotal orders p.1 := hval_touch p hp
          rcases hcase with ⟨hpm, rfl⟩ | ⟨hpm, rfl⟩
          · rw [monthTotal_append, hmo, hpm, if_pos rfl, contribOf_some hpd]
            simp only []
            rw [hpv, hpm]
          · rw [monthTotal_append, hmo]
            rw [if_neg (fun hc : (some month : Option Int) = some kv.1 =>
              hpm (Option.some.inj hc).symm)]
            rw [add_zero]
            exact hpv

/-- Orders whose month slice fails to parse are skipped by
`monthly_revenue`. -/
theorem monthly_skip (orders : List Order) :
    monthly_revenue (orders.filter (fun o => (monthOf o).isSome)) = monthly_revenue orders := by
  unfold monthly_revenue
  suffices h : ∀ (l : List Order) (acc : List (Int × Rat)),
      (l.filter (fun o => (monthOf o).isSome)).foldl monthStep acc = l.foldl monthStep acc by
    exact h orders []
  intro l
  induction l with
  | nil => intro acc; rfl
  | cons o rest ih =>
    intro acc
    cases hmo : monthOf o with
    | none =>
      rw [List.filter_cons_of_neg (by simp [hmo])]
      rw [ih, List.foldl_cons]
      rw [show monthStep acc o = acc from by unfold monthStep; rw [hmo]]
    | some month =>
      rw [List.filter_cons_of_pos (by simp [hmo]), List.foldl_cons, List.foldl_cons, ih]

/-- C6 (amended): every key of `monthly_revenue` is the integer parsed
from characters 5-6 of some order's creation timestamp, and conversely;
each key's value is the sum of the parsed total prices of the orders with
that month (an unparsable price contributing zero); orders whose month
slice does not parse are skipped without affecting the result (the model
is a total function, so no input aborts it); and all keys lie in `1..12`
provided every order's parsable month slice does — unconditionally the
keys need not lie in `1..12`, see the counterexample. -/
theorem c6_monthly_revenue (orders : List Order) :
    (∀ k ∈ (monthly_revenue orders).map Prod.fst, ∃ o ∈ orders, monthOf o = some k)
    ∧ (∀ k : Int, (∃ o ∈ orders, monthOf o = some k) →
        k ∈ (monthly_revenue orders).map Prod.fst)
    ∧ (∀ kv ∈ monthly_revenue orders, kv.2 = monthTotal orders kv.1)
    ∧ monthly_revenue (orders.filter (fun o => (monthOf o).isSome)) = monthly_revenue orders
    ∧ ((∀ o ∈ orders, ∀ k, monthOf o = some k → 1 ≤ k ∧ k ≤ 12) →
        ∀ k ∈ (monthly_revenue orders).map Prod.fst, 1 ≤ k ∧ k ≤ 12) := by
  obtain ⟨-, hmem, hval⟩ := monthly_spec orders
  refine ⟨fun k hk => (hmem k).mp hk, fun k hk => (hmem k).mpr hk, hval,
    monthly_skip orders, fun hgood k hk => ?_⟩
  rcases (hmem k).mp hk with ⟨o, ho, hmo⟩
  exact hgood o ho k hmo

/-- `monthStep` once the month and price are known to parse. -/
theorem monthStep_eval (m : List (Int × Rat)) (o : Order) (month : Int) (d : Rat)
    (h1 : monthOf o = some month) (h2 : pyDecimalParse (o.total_price.getD "0") = some d) :
    monthStep m o
      = (touchMonth m month).map (fun p => if p.1 = month then (p.1, p.2 + d) else p) := by
  unfold monthStep
  rw [h1, h2]

/-- Evaluating `monthly_revenue` on the malformed-month order. -/
theorem month13_eval : monthly_revenue month13Orders = [(13, 1)] := by
  have hfold : monthly_revenue month13Orders
      = monthStep [] ⟨some "2024-13-01T00:00:00-05:00", some "1.00", []⟩ := rfl
  rw [hfold,
    monthStep_eval [] ⟨some "2024-13-01T00:00:00-05:00", some "1.00", []⟩ 13 1 rfl pd_one]
  simp [touchMonth]

/-- Evaluating `monthly_revenue` on the March order. -/
theorem march_eval : monthly_revenue marchOrders = [(3, 7)] := by
  have hfold : monthly_revenue marchOrders = monthStep [] marchOrder := rfl
  rw [hfold, monthStep_eval [] marchOrder 3 7 rfl pd_seven]
  simp [touchMonth]

/-- Counterexample for C6 as stated: an order whose timestamp reads
`"2024-13-01..."` is neither skipped nor range-checked, so `monthly_revenue`
returns the key 13, outside `1..12`. -/
theorem c6_counterexample :
    (13 : Int) ∈ (monthly_revenue month13Orders).map Prod.fst ∧ ¬ ((13 : Int) ≤ 12) := by
  rw [month13_eval]
  exact ⟨by simp, by decide⟩

/-- Witness for C6 at a well-formed March order: key 3 appears, lies in
`1..12`, and carries the order's revenue. -/
theorem c6_witness :
    (3 : Int) ∈ (monthly_revenue marchOrders).map Prod.fst
    ∧ (1 ≤ (3 : Int) ∧ (3 : Int) ≤ 12)
    ∧ (7 : Rat) = monthTotal marchOrders 3 := by
  have hmem := (c6_monthly_revenue marchOrders).2.1 3
    ⟨marchOrder, by simp [marchOrders], rfl⟩
  refine ⟨hmem, (c6_monthly_revenue marchOrders).2.2.2.2 (fun o ho k hk => ?_) 3 hmem, ?_⟩
  · have ho' : o = marchOrder := by simpa [marchOrders] using ho
    subst ho'
    rw [show monthOf marchOrder = some 3 from rfl] at hk
    have h3 := Option.some.inj hk
    omega
  · exact (c6_monthly_revenue marchOrders).2.2.1 (3, 7) (by rw [march_eval]; simp)

/-- Splitting an `Option`-valued left fold over an append. -/
theorem foldlM_append_opt {β σ : Type} (f : σ → β → Option σ) (l₁ l₂ : List β) (b : σ) :
    (l₁ ++ l₂).foldlM f b = (l₁.foldlM f b).bind fun s => l₂.foldlM f s := by
  induction l₁ generalizing b with
  | nil => simp
  | cons a rest ih =>
    cases hfa : f b a <;> simp [List.foldlM, hfa, ih]

/-- A nested `Option`-valued fold over orders and their line items is the
fold over the flattened item list. -/
theorem foldlM_nested_opt {α β σ : Type} (g : α → List β) (f : σ → β → Option σ)
    (l : List α) (init : σ) :
    l.foldlM (fun s a => (g a).foldlM f s) init = (l.flatMap g).foldlM f init := by
  induction l generalizing init with
  | nil => rfl
  | cons a rest ih =>
    rw [List.flatMap_cons, foldlM_append_opt]
    cases h : (g a).foldlM f init with
    | none => simp [List.foldlM, h]
    | some s => simp [List.foldlM, h, ih]

/-- The grouping fold succeeds exactly when every line-item price parses,
and then computes the pure grouping fold. -/
theorem foldlM_stepItem (items : List LineItem) (acc : List Product) :
    items.foldlM stepItem acc
      = if ∀ i ∈ items, (pyDecimalParse (i.price.getD "0")).isSome
        then some (items.foldl stepPure acc) else none := by
  induction items generalizing acc with
  | nil => simp
  | cons i rest ih =>
    cases hp : pyDecimalParse (i.price.getD "0") with
    | none =>
      have hstep : stepItem acc i = none := by
        unfold stepItem
        rw [hp]
      rw [if_neg (fun hall => by
        have h1 := hall i (List.mem_cons_self i rest)
        rw [hp] at h1
        cases h1)]
      simp [List.foldlM, hstep]
    | some pr =>
      have hstep : stepItem acc i = some (updateProducts acc i pr) := by
        unfold stepItem
        rw [hp]
      have hpure : stepPure acc i = updateProducts acc i pr := by
        unfold stepPure priceD
        rw [hp, Option.getD_some]
      rw [show List.foldlM stepItem acc (i :: rest)
          = rest.foldlM stepItem (updateProducts acc i pr) from by
        simp [List.foldlM, hstep]]
      rw [ih]
      by_cases hall : ∀ i' ∈ rest, (pyDecimalParse (i'.price.getD "0")).isSome
      · rw [if_pos hall, if_pos (fun i' hi' => by
          rcases List.mem_cons.mp hi' with rfl | hmem
          · rw [hp]; rfl
          · exact hall i' hmem)]
        rw [List.foldl_cons, hpure]
      · rw [if_neg hall, if_neg (fun hcon =>
          hall (fun i' hi' => hcon i' (List.mem_cons_of_mem i hi')))]

/-- The grouping phase of `top_products` over the flattened item list. -/
theorem top_products_groups_eq (orders : List Order) :
    top_products_groups orders = (allItems orders).foldlM stepItem [] := by
  unfold top_products_groups allItems
  exact foldlM_nested_opt Order.line_items stepItem orders []

/-- A successful grouping is the pure grouping of the flattened items, and
certifies that every price parsed. -/
theorem groups_some {orders : List Order} {ps : List Product}
    (h : top_products_groups orders = some ps) :
    ps = groupsPure (allItems orders)
    ∧ ∀ i ∈ allItems orders, (pyDecimalParse (i.price.getD "0")).isSome := by
  rw [top_products_groups_eq, foldlM_stepItem] at h
  by_cases hall : ∀ i ∈ allItems orders, (pyDecimalParse (i.price.getD "0")).isSome
  · rw [if_pos hall] at h
    exact ⟨(Option.some.inj h).symm, hall⟩
  · rw [if_neg hall] at h
    cases h

/-- C5 (amended): `sum_revenue`, `classify_line_item`,
`count_units_by_category` and `monthly_revenue` are total functions of the
embedding — no malformed field reaches the caller — but `top_products`
propagates an exception exactly when some line item's price string fails to
parse as a decimal, because its `Decimal(...)` call sits outside any `try`
block; as stated, the claim that no core function ever raises is refuted
by `c5_counterexample`. -/
theorem c5_exceptions (orders : List Order) (n : Nat) :
    (top_products orders n).isSome
      ↔ ∀ i ∈ allItems orders, (pyDecimalParse (i.price.getD "0")).isSome := by
  unfold top_products
  rw [top_products_groups_eq, foldlM_stepItem]
  by_cases hall : ∀ i ∈ allItems orders, (pyDecimalParse (i.price.getD "0")).isSome
  · simp [hall]
  · simp [hall]

/-- Counterexample for C5 as stated: one line item priced
`"notanumber"` makes `top_products` fail (the `none` models the raised
`decimal.InvalidOperation`). -/
theorem c5_counterexample : top_products badPriceOrders 20 = none := rfl

/-- Witness for C5: with all prices parseable, `top_products` succeeds. -/
theorem c5_witness : (top_products toteOrders 20).isSome :=
  (c5_exceptions toteOrders 20).mpr (by decide)

/-- Membership in `firstDedup`: the kept elements are the input elements
not in `seen`. -/
theorem mem_firstDedup (x : String) : ∀ (seen l : List String),
    x ∈ firstDedup seen l ↔ x ∉ seen ∧ x ∈ l := by
  intro seen l
  induction l generalizing seen with
  | nil => simp [firstDedup]
  | cons t rest ih =>
    simp only [firstDedup]
    by_cases h : t ∈ seen
    · rw [if_pos h, ih seen]
      constructor
      · rintro ⟨hn, hr⟩
        exact ⟨hn, List.mem_cons_of_mem t hr⟩
      · rintro ⟨hn, hc⟩
        rcases List.mem_cons.mp hc with rfl | hr
        · exact absurd h hn
        · exact ⟨hn, hr⟩
    · rw [if_neg h]
      constructor
      · intro hx
        rcases List.mem_cons.mp hx with rfl | hx2
        · exact ⟨h, List.mem_cons_self x rest⟩
        · obtain ⟨hn, hr⟩ := (ih (t :: seen)).mp hx2
          exact ⟨fun hs => hn (List.mem_cons_of_mem t hs), List.mem_cons_of_mem t hr⟩
      · rintro ⟨hn, hc⟩
        rcases List.mem_cons.mp hc with rfl | hr
        · exact List.mem_cons_self x _
        · by_cases hxt : x = t
          · subst hxt
            exact List.mem_cons_self x _
          · exact List.mem_cons_of_mem t
              ((ih (t :: seen)).mpr ⟨fun hs => (List.mem_cons.mp hs).elim hxt hn, hr⟩)

/-- `firstDedup` never repeats an element. -/
theorem nodup_firstDedup : ∀ (l seen : List String), (firstDedup seen l).Nodup := by
  intro l
  induction l with
  | nil => intro seen; simp [firstDedup]
  | cons t rest ih =>
    intro seen
    simp only [firstDedup]
    by_cases h : t ∈ seen
    · rw [if_pos h]
      exact ih seen
    · rw [if_neg h]
      refine List.nodup_cons.mpr ⟨?_, ih (t :: seen)⟩
      intro hmem
      exact ((mem_firstDedup t (t :: seen) rest).mp hmem).1 (List.mem_cons_self t seen)

/-- `firstDedup` over a list extended by one element. -/
theorem firstDedup_append (x : String) : ∀ (l seen : List String),
    firstDedup seen (l ++ [x])
      = firstDedup seen l ++ (if x ∈ seen ∨ x ∈ l then [] else [x]) := by
  intro l
  induction l with
  | nil =>
    intro seen
    simp only [List.nil_append, firstDedup]
    by_cases h : x ∈ seen
    · rw [if_pos h, if_pos (Or.inl h)]
    · rw [if_neg h, if_neg (by
        rintro (hc | hc)
        · exact h hc
        · simp at hc)]
  | cons t rest ih =>
    intro seen
    simp only [List.cons_append, firstDedup, List.append_eq]
    by_cases h : t ∈ seen
    · rw [if_pos h, if_pos h, ih seen]
      congr 1
      by_cases hc : x ∈ seen ∨ x ∈ rest
      · rw [if_pos hc, if_pos (by
          rcases hc with hs | hr
          · exact Or.inl hs
          · exact Or.inr (List.mem_cons_of_mem t hr))]
      · rw [if_neg hc, if_neg (by
          rintro (hs | hcr)
          · exact hc (Or.inl hs)
          · rcases List.mem_cons.mp hcr with rfl | hr
            · exact hc (Or.inl h)
            · exact hc (Or.inr hr))]
    · rw [if_neg h, if_neg h, ih (t :: seen), List.cons_append]
      congr 2
      by_cases hc : x = t
      · subst hc
        rw [if_pos (Or.inl (List.mem_cons_self x seen)), if_pos (Or.inr (List.mem_cons_self x rest))]
      · by_cases hc2 : x ∈ seen ∨ x ∈ rest
        · rw [if_pos, if_pos]
          · rcases hc2 with hs | hr
            · exact Or.inl hs
            · exact Or.inr (List.mem_cons_of_mem t hr)
          · rcases hc2 with hs | hr
            · exact Or.inl (List.mem_cons_of_mem t hs)
            · exact Or.inr hr
        · rw [if_neg, if_neg]
          · rintro (hs | hcr)
            · exact hc2 (Or.inl hs)
            · rcases List.mem_cons.mp hcr with h1 | hr
              · exact hc h1
              · exact hc2 (Or.inr hr)
          · rintro (hcs | hr)
            · rcases List.mem_cons.mp hcs with h1 | hs
              · exact hc h1
              · exact hc2 (Or.inl hs)
            · exact hc2 (Or.inr hr)

/-- The title group of a list extended by one item. -/
theorem titleGroup_append (items : List LineItem) (j : LineItem) (t : String) :
    titleGroup (items ++ [j]) t
      = titleGroup items t ++ if effTitle j = t then [j] else [] := by
  unfold titleGroup
  rw [List.filter_append]
  by_cases h : effTitle j = t <;> simp [h]

/-- Group units over a list extended by one item. -/
theorem unitsSpec_append (items : List LineItem) (j : LineItem) (t : String) :
    unitsSpec (items ++ [j]) t
      = unitsSpec items t + if effTitle j = t then qtyD j else 0 := by
  unfold unitsSpec
  rw [titleGroup_append]
  by_cases h : effTitle j = t <;> simp [h]

/-- Group revenue over a list extended by one item. -/
theorem revSpec_append (items : List LineItem) (j : LineItem) (t : String) :
    revSpec (items ++ [j]) t
      = revSpec items t + if effTitle j = t then priceD j * (qtyD j : Rat) else 0 := by
  unfold revSpec
  rw [titleGroup_append]
  by_cases h : effTitle j = t <;> simp [h]

/-- A title occurring nowhere has an empty group. -/
theorem titleGroup_nil {items : List LineItem} {t : String} (h : t ∉ items.map effTitle) :
    titleGroup items t = [] := by
  unfold titleGroup
  induction items with
  | nil => rfl
  | cons i rest ih =>
    simp only [List.map_cons, List.mem_cons, not_or] at h
    rw [List.filter_cons_of_neg (by
      simp only [decide_eq_true_eq]
      exact fun hc => h.1 hc.symm)]
    exact ih (by simpa using h.2)

/-- A title occurring nowhere has zero units. -/
theorem unitsSpec_zero {items : List LineItem} {t : String} (h : t ∉ items.map effTitle) :
    unitsSpec items t = 0 := by
  unfold unitsSpec
  rw [titleGroup_nil h]
  rfl

/-- A title occurring nowhere has zero revenue. -/
theorem revSpec_zero {items : List LineItem} {t : String} (h : t ∉ items.map effTitle) :
    revSpec items t = 0 := by
  unfold revSpec
  rw [titleGroup_nil h]
  rfl

/-- A title occurring in the list has a first item. -/
theorem find?_title_isSome {items : List LineItem} {t : String} (h : t ∈ items.map effTitle) :
    ∃ i, items.find? (fun i => effTitle i = t) = some i := by
  have hs : (items.find? (fun i => effTitle i = t)).isSome := by
    rw [List.find?_isSome]
    rcases List.mem_map.mp h with ⟨i, hi, rfl⟩
    exact ⟨i, hi, by simp⟩
  exact Option.isSome_iff_exists.mp hs

/-- The group category ignores a later item when the title was already
seen. -/
theorem catSpec_append_found {items : List LineItem} {t : String} (j : LineItem)
    (h : t ∈ items.map effTitle) :
    catSpec (items ++ [j]) t = catSpec items t := by
  unfold catSpec
  rw [List.find?_append]
  rcases find?_title_isSome h with ⟨i, hi⟩
  rw [hi]
  rfl

/-- The group category of a fresh title is the classification of the item
introducing it. -/
theorem catSpec_append_new {items : List LineItem} {t : String} {j : LineItem}
    (h : t ∉ items.map effTitle) (hj : effTitle j = t) :
    catSpec (items ++ [j]) t = (classify_line_item j).getD "Other" := by
  unfold catSpec
  rw [List.find?_append]
  rw [List.find?_eq_none.mpr (fun i hi => by
    simp only [decide_eq_true_eq]
    exact fun hc => h (hc ▸ List.mem_map_of_mem effTitle hi))]
  rw [show ([j].find? fun i => effTitle i = t) = some j from by
    rw [List.find?_cons_of_pos]
    simp [hj]]
  rfl

/-- The value-update map of `updateProducts` keeps every title. -/
theorem map_title_upd (t : String) (qty : Nat) (price : Rat) (l : List Product) :
    (l.map (fun p =>
      if p.title = t
      then (⟨p.title, p.units + qty, p.revenue + price * (qty : Rat), p.category⟩ : Product)
      else p)).map Product.title = l.map Product.title := by
  rw [List.map_map]
  apply List.map_congr_left
  intro p _
  by_cases h : p.title = t <;> simp [h]

/-- Key list of `updateProducts`: unchanged for a seen title, extended at
the end by a fresh one. -/
theorem updateProducts_title (acc : List Product) (item : LineItem) (price : Rat) :
    (updateProducts acc item price).map Product.title
      = acc.map Product.title
        ++ if effTitle item ∈ acc.map Product.title then [] else [effTitle item] := by
  unfold updateProducts
  rw [map_title_upd]
  by_cases h : effTitle item ∈ acc.map Product.title
  · rw [if_pos h, if_pos h, List.append_nil]
  · rw [if_neg h, if_neg h]
    simp

/-- Inverting membership in `updateProducts`. -/
theorem mem_updateProducts {acc : List Product} {item : LineItem} {price : Rat} {p : Product}
    (h : p ∈ updateProducts acc item price) :
    ∃ p₀ ∈ (if effTitle item ∈ acc.map Product.title then acc
        else acc ++ [⟨effTitle item, 0, 0, (classify_line_item item).getD "Other"⟩]),
      p = if p₀.title = effTitle item
        then ⟨p₀.title, p₀.units + qtyD item, p₀.revenue + price * (qtyD item : Rat), p₀.category⟩
        else p₀ := by
  unfold updateProducts at h
  rcases List.mem_map.mp h with ⟨p₀, hp₀, rfl⟩
  exact ⟨p₀, hp₀, rfl⟩

/-- The pure grouping over a list extended by one item. -/
theorem groupsPure_append (items : List LineItem) (j : LineItem) :
    groupsPure (items ++ [j]) = stepPure (groupsPure items) j := by
  unfold groupsPure
  rw [List.foldl_append]
  rfl

/-- The pure grouping's key list is the first-encounter deduplication of
the item titles, and every aggregate carries its group's units, revenue
and first-item category. -/
theorem groupsPure_spec (items : List LineItem) :
    (groupsPure items).map Product.title = firstDedup [] (items.map effTitle)
    ∧ ∀ p ∈ groupsPure items,
        p.units = unitsSpec items p.title
        ∧ p.revenue = revSpec items p.title
        ∧ p.category = catSpec items p.title := by
  induction items using List.reverseRecOn with
  | nil => exact ⟨rfl, fun p hp => absurd hp (List.not_mem_nil p)⟩
  | append_singleton items j ih =>
    obtain ⟨iht, ihp⟩ := ih
    have hkey : ∀ t : String,
        t ∈ (groupsPure items).map Product.title ↔ t ∈ items.map effTitle := by
      intro t
      rw [iht, mem_firstDedup]
      simp
    rw [groupsPure_append]
    unfold stepPure
    constructor
    · rw [updateProducts_title, iht]
      rw [show (items ++ [j]).map effTitle = items.map effTitle ++ [effTitle j] from by simp]
      rw [firstDedup_append]
      by_cases h : effTitle j ∈ items.map effTitle
      · rw [if_pos ((mem_firstDedup _ _ _).mpr ⟨by simp, h⟩), if_pos (Or.inr h)]
      · rw [if_neg (fun hc => h ((mem_firstDedup _ _ _).mp hc).2), if_neg (by
          rintro (hc | hc)
          · simp at hc
          · exact h hc)]
    · intro p hp
      rcases mem_updateProducts hp with ⟨p₀, hp₀, rfl⟩
      by_cases hmem : effTitle j ∈ (groupsPure items).map Product.title
      · rw [if_pos hmem] at hp₀
        have hprops := ihp p₀ hp₀
        have htmem : p₀.title ∈ items.map effTitle :=
          (hkey _).mp (List.mem_map_of_mem Product.title hp₀)
        by_cases htp : p₀.title = effTitle j
        · rw [if_pos htp]
          refine ⟨?_, ?_, ?_⟩
          · show p₀.units + qtyD j = unitsSpec (items ++ [j]) p₀.title
            rw [unitsSpec_append, if_pos htp.symm, hprops.1]
          · show p₀.revenue + priceD j * (qtyD j : Rat) = revSpec (items ++ [j]) p₀.title
            rw [revSpec_append, if_pos htp.symm, hprops.2.1]
          · show p₀.category = catSpec (items ++ [j]) p₀.title
            rw [catSpec_append_found j htmem]
            exact hprops.2.2
        · rw [if_neg htp]
          refine ⟨?_, ?_, ?_⟩
          · rw [unitsSpec_append, if_neg (fun hc => htp hc.symm), Nat.add_zero]
            exact hprops.1
          · rw [revSpec_append, if_neg (fun hc => htp hc.symm), add_zero]
            exact hprops.2.1
          · rw [catSpec_append_found j htmem]
            exact hprops.2.2
      · rw [if_neg hmem] at hp₀
        rcases List.mem_append.mp hp₀ with hold | hfresh
        · have htmem : p₀.title ∈ items.map effTitle :=
            (hkey _).mp (List.mem_map_of_mem Product.title hold)
          have htp : p₀.title ≠ effTitle j :=
            fun hc => hmem (hc ▸ List.mem_map_of_mem Product.title hold)
          have hprops := ihp p₀ hold
          rw [if_neg htp]
          refine ⟨?_, ?_, ?_⟩
          · rw [unitsSpec_append, if_neg (fun hc => htp hc.symm), Nat.add_zero]
            exact hprops.1
          · rw [revSpec_append, if_neg (fun hc => htp hc.symm), add_zero]
            exact hprops.2.1
          · rw [catSpec_append_found j htmem]
            exact hprops.2.2
        · have hp₀eq : p₀ = ⟨effTitle j, 0, 0, (classify_line_item j).getD "Other"⟩ := by
            simpa using hfresh
          subst hp₀eq
          rw [if_pos rfl]
          have hnotm : effTitle j ∉ items.map effTitle := fun hc => hmem ((hkey _).mpr hc)
          refine ⟨?_, ?_, ?_⟩
          · show 0 + qtyD j = unitsSpec (items ++ [j]) (effTitle j)
            rw [unitsSpec_append, if_pos rfl, unitsSpec_zero hnotm]
          · show 0 + priceD j * (qtyD j : Rat) = revSpec (items ++ [j]) (effTitle j)
            rw [revSpec_append, if_pos rfl, revSpec_zero hnotm]
          · show (classify_line_item j).getD "Other" = catSpec (items ++ [j]) (effTitle j)
            rw [catSpec_append_new hnotm rfl]

/-- Inserting into the descending sort: elements passed over are strictly
larger, so the filter at any fixed units value stays in order. -/
theorem filter_orderedInsert_units (u : Nat) (a : Product) (l : List Product) :
    (List.orderedInsert unitsGE a l).filter (fun p => p.units = u)
      = if a.units = u then a :: l.filter (fun p => p.units = u)
        else l.filter (fun p => p.units = u) := by
  induction l with
  | nil =>
    simp only [List.orderedInsert]
    by_cases h : a.units = u <;> simp [h]
  | cons b rest ih =>
    simp only [List.orderedInsert]
    by_cases hr : unitsGE a b
    · rw [if_pos hr]
      by_cases ha : a.units = u
      · rw [List.filter_cons_of_pos (by simp [ha]), if_pos ha]
      · rw [List.filter_cons_of_neg (by simp [ha]), if_neg ha]
    · rw [if_neg hr]
      have hgt : a.units < b.units := Nat.lt_of_not_le hr
      by_cases hb : b.units = u
      · rw [List.filter_cons_of_pos (by simp [hb]), ih]
        by_cases ha : a.units = u
        · exfalso
          omega
        · rw [if_neg ha, if_neg ha, List.filter_cons_of_pos (by simp [hb])]
      · rw [List.filter_cons_of_neg (by simp [hb]), ih]
        by_cases ha : a.units = u
        · rw [if_pos ha, if_pos ha, List.filter_cons_of_neg (by simp [hb])]
        · rw [if_neg ha, if_neg ha, List.filter_cons_of_neg (by simp [hb])]

/-- Stability of the descending insertion sort: restricting to any fixed
units value returns the input order. -/
theorem filter_insertionSort_units (u : Nat) (l : List Product) :
    (List.insertionSort unitsGE l).filter (fun p => p.units = u)
      = l.filter (fun p => p.units = u) := by
  induction l with
  | nil => rfl
  | cons a rest ih =>
    simp only [List.insertionSort]
    rw [filter_orderedInsert_units, ih]
    by_cases ha : a.units = u
    · rw [if_pos ha, List.filter_cons_of_pos (by simp [ha])]
    · rw [if_neg ha, List.filter_cons_of_neg (by simp [ha])]

/-- C3: every successful `top_products orders n` returns at most `n`
aggregates, sorted non-increasingly by units; among aggregates of equal
units the first-encounter order of the grouping is preserved (the filter
at each units value is a prefix of the grouping's filter, and the
grouping's key list is the first-encounter deduplication of the titles);
when fewer than `n` groups exist, all of them are returned (the output is
a permutation of the whole grouping). -/
theorem c3_top_products_order (orders : List Order) (n : Nat) (ps : List Product)
    (h : top_products orders n = some ps) :
    ps.length ≤ n
    ∧ List.Sorted unitsGE ps
    ∧ (∀ u : Nat, ps.filter (fun p => p.units = u) <+:
        (groupsPure (allItems orders)).filter (fun p => p.units = u))
    ∧ (groupsPure (allItems orders)).map Product.title
        = firstDedup [] ((allItems orders).map effTitle)
    ∧ ((groupsPure (allItems orders)).length ≤ n → ps.Perm (groupsPure (allItems orders))) := by
  unfold top_products at h
  rcases Option.map_eq_some'.mp h with ⟨g0, hg0, hps⟩
  obtain ⟨hg, -⟩ := groups_some hg0
  subst hg
  subst hps
  refine ⟨?_, ?_, ?_, (groupsPure_spec _).1, ?_⟩
  · rw [List.length_take]
    exact min_le_left _ _
  · exact (List.sorted_insertionSort unitsGE _).sublist (List.take_sublist _ _)
  · intro u
    have hpre := (List.take_prefix n
      (List.insertionSort unitsGE (groupsPure (allItems orders)))).filter
        (fun p => decide (p.units = u))
    rw [filter_insertionSort_units] at hpre
    exact hpre
  · intro hlen
    have hlen2 : (List.insertionSort unitsGE (groupsPure (allItems orders))).length ≤ n := by
      rw [(List.perm_insertionSort unitsGE (groupsPure (allItems orders))).length_eq]
      exact hlen
    rw [List.take_of_length_le hlen2]
    exact List.perm_insertionSort unitsGE (groupsPure (allItems orders))

/-- Reading off a line item's parsed price. -/
theorem priceD_eval (i : LineItem) (s : String) (d : Rat) (hs : i.price = some s)
    (hd : pyDecimalParse s = some d) : priceD i = d := by
  unfold priceD
  rw [hs, Option.getD_some, hd, Option.getD_some]

/-- `stepPure` once the price is known to parse. -/
theorem stepPure_eval (acc : List Product) (i : LineItem) (s : String) (d : Rat)
    (hs : i.price = some s) (hd : pyDecimalParse s = some d) :
    stepPure acc i = updateProducts acc i d := by
  unfold stepPure
  rw [priceD_eval i s d hs hd]

/-- First Tote Bag line item entering an empty accumulator. -/
theorem upd_tote1 :
    updateProducts [] ⟨some "Tote Bag", none, some "20.00", some 3⟩ 20
      = [⟨"Tote Bag", 3, 60, "Other"⟩] := by
  unfold updateProducts
  rw [show classify_line_item ⟨some "Tote Bag", none, some "20.00", some 3⟩ = none from by
    decide]
  norm_num [effTitle, qtyD]

/-- Second Tote Bag line item accumulating onto the first. -/
theorem upd_tote2 :
    updateProducts [⟨"Tote Bag", 3, 60, "Other"⟩]
        ⟨some "Tote Bag", none, some "20.00", some 5⟩ 20
      = [⟨"Tote Bag", 8, 160, "Other"⟩] := by
  unfold updateProducts
  norm_num [effTitle, qtyD]

/-- The grouping phase of the Tote Bag scenario. -/
theorem tote_groups_eval :
    top_products_groups toteOrders = some [⟨"Tote Bag", 8, 160, "Other"⟩] := by
  rw [top_products_groups_eq]
  rw [show allItems toteOrders
      = [⟨some "Tote Bag", none, some "20.00", some 3⟩,
         ⟨some "Tote Bag", none, some "20.00", some 5⟩] from rfl]
  rw [foldlM_stepItem, if_pos (by decide)]
  simp only [List.foldl_cons, List.foldl_nil]
  rw [stepPure_eval [] _ "20.00" 20 rfl pd_twenty, upd_tote1,
    stepPure_eval _ _ "20.00" 20 rfl pd_twenty, upd_tote2]

/-- The Tote Bag scenario end to end. -/
theorem tote_eval : top_products toteOrders 20 = some [⟨"Tote Bag", 8, 160, "Other"⟩] := by
  unfold top_products
  rw [tote_groups_eval]
  rfl

/-- C2: every aggregate returned by a successful `top_products` call
carries a distinct title, with units the sum of the quantities of the line
items grouped under that exact title, revenue the sum of each occurrence's
own price times quantity, and category the classification of the first
line item processed for the title (`"Other"` when unclassified); the
spec's scenario of two `"Tote Bag"` items with quantities 3 and 5 at price
`"20.00"` yields the single aggregate with units 8 and revenue 160.00. -/
theorem c2_top_products_aggregates :
    (∀ (orders : List Order) (n : Nat) (ps : List Product), top_products orders n = some ps →
        (ps.map Product.title).Nodup
        ∧ ∀ p ∈ ps,
            p.units = unitsSpec (allItems orders) p.title
            ∧ p.revenue = revSpec (allItems orders) p.title
            ∧ p.category = catSpec (allItems orders) p.title)
    ∧ top_products toteOrders 20 = some [⟨"Tote Bag", 8, 160, "Other"⟩] := by
  constructor
  · intro orders n ps h
    unfold top_products at h
    rcases Option.map_eq_some'.mp h with ⟨g0, hg0, hps⟩
    obtain ⟨hg, -⟩ := groups_some hg0
    subst hg
    subst hps
    constructor
    · have hnd : ((groupsPure (allItems orders)).map Product.title).Nodup := by
        rw [(groupsPure_spec _).1]
        exact nodup_firstDedup _ _
      have hperm :=
        (List.perm_insertionSort unitsGE (groupsPure (allItems orders))).map Product.title
      exact (hperm.nodup_iff.mpr hnd).sublist ((List.take_sublist _ _).map Product.title)
    · intro p hp
      have hp2 : p ∈ List.insertionSort unitsGE (groupsPure (allItems orders)) :=
        (List.take_sublist _ _).subset hp
      have hp3 : p ∈ groupsPure (allItems orders) :=
        (List.perm_insertionSort unitsGE _).subset hp2
      exact (groupsPure_spec _).2 p hp3
  · exact tote_eval

/-- Witness for C2 on the Tote Bag scenario: the aggregate list has
distinct titles and its single aggregate's units equal the group sum. -/
theorem c2_witness :
    (([⟨"Tote Bag", 8, (160 : Rat), "Other"⟩] : List Product).map Product.title).Nodup
    ∧ (⟨"Tote Bag", 8, (160 : Rat), "Other"⟩ : Product).units
        = unitsSpec (allItems toteOrders) "Tote Bag" := by
  have h := c2_top_products_aggregates.1 toteOrders 20 _ c2_top_products_aggregates.2
  exact ⟨h.1, (h.2 _ (List.mem_singleton.mpr rfl)).1⟩

/-- Witness for C3 on the Tote Bag scenario: the output is short enough
and sorted. -/
theorem c3_witness :
    ([⟨"Tote Bag", 8, (160 : Rat), "Other"⟩] : List Product).length ≤ 20
    ∧ List.Sorted unitsGE [⟨"Tote Bag", 8, (160 : Rat), "Other"⟩] := by
  have h := c3_top_products_order toteOrders 20 _ tote_eval
  exact ⟨h.1, h.2.1⟩

/-- In a list of aggregates with distinct titles, a present title is
carried by exactly one aggregate. -/
theorem countP_title (l : List Product) (t : String) (hnd : (l.map Product.title).Nodup)
    (hmem : t ∈ l.map Product.title) :
    l.countP (fun p => p.title = t) = 1 := by
  induction l with
  | nil => simp at hmem
  | cons p rest ih =>
    simp only [List.map_cons, List.nodup_cons] at hnd
    rw [List.map_cons] at hmem
    rcases List.mem_cons.mp hmem with heq | hmem2
    · rw [List.countP_cons_of_pos _ _ (by simp [heq.symm])]
      have hz : rest.countP (fun p' => p'.title = t) = 0 := by
        rw [List.countP_eq_zero]
        intro q hq
        simp only [decide_eq_true_eq]
        intro hqt
        exact hnd.1 (heq ▸ hqt ▸ List.mem_map_of_mem Product.title hq)
      rw [hz]
    · have hneq : ¬ (p.title = t) := fun hc => hnd.1 (hc ▸ hmem2)
      rw [List.countP_cons_of_neg _ _ (by simp [hneq])]
      exact ih hnd.2 hmem2

/-- The dict key is `"Unknown"` exactly for an absent title or the literal
title `"Unknown"`. -/
theorem effTitle_unknown (i : LineItem) :
    (effTitle i = "Unknown") ↔ (i.title = none ∨ i.title = some "Unknown") := by
  unfold effTitle
  cases ht : i.title <;> simp

/-- C10: whenever the grouping phase of `top_products` succeeds and some
line item's title field is absent, exactly one aggregate is keyed
`"Unknown"`, and its units count every line item with an absent title
together with every item literally titled `"Unknown"` — such items are
merged, not skipped and not kept distinct. -/
theorem c10_unknown_bucket (orders : List Order) (ps : List Product)
    (h : top_products_groups orders = some ps)
    (hex : ∃ i ∈ allItems orders, i.title = none) :
    ps.countP (fun p => p.title = "Unknown") = 1
    ∧ ∀ p ∈ ps, p.title = "Unknown" →
        p.units = (((allItems orders).filter
          (fun i => i.title = none ∨ i.title = some "Unknown")).map qtyD).sum := by
  obtain ⟨hg, -⟩ := groups_some h
  subst hg
  have hspec := groupsPure_spec (allItems orders)
  have hnd : ((groupsPure (allItems orders)).map Product.title).Nodup := by
    rw [hspec.1]
    exact nodup_firstDedup _ _
  have hmemU : "Unknown" ∈ (groupsPure (allItems orders)).map Product.title := by
    rw [hspec.1, mem_firstDedup]
    rcases hex with ⟨i, hi, hti⟩
    refine ⟨by simp, ?_⟩
    rw [show ("Unknown" : String) = effTitle i from by unfold effTitle; rw [hti]; rfl]
    exact List.mem_map_of_mem effTitle hi
  refine ⟨countP_title _ _ hnd hmemU, fun p hp hpt => ?_⟩
  rw [(hspec.2 p hp).1, hpt]
  unfold unitsSpec titleGroup
  congr 2
  apply List.filter_congr
  intro i _
  exact decide_eq_decide.mpr (effTitle_unknown i)

/-- First absent-title item entering an empty accumulator. -/
theorem upd_unk1 :
    updateProducts [] ⟨none, none, some "1", some 2⟩ 1 = [⟨"Unknown", 2, 2, "Other"⟩] := by
  unfold updateProducts
  rw [show classify_line_item ⟨none, none, some "1", some 2⟩ = none from by decide]
  norm_num [effTitle, qtyD]

/-- The literally-titled `"Unknown"` item accumulating onto the bucket. -/
theorem upd_unk2 :
    updateProducts [⟨"Unknown", 2, 2, "Other"⟩] ⟨some "Unknown", none, some "2", some 3⟩ 2
      = [⟨"Unknown", 5, 8, "Other"⟩] := by
  unfold updateProducts
  norm_num [effTitle, qtyD]

/-- The second absent-title item accumulating onto the bucket. -/
theorem upd_unk3 :
    updateProducts [⟨"Unknown", 5, 8, "Other"⟩] ⟨none, none, some "4", some 1⟩ 4
      = [⟨"Unknown", 6, 12, "Other"⟩] := by
  unfold updateProducts
  norm_num [effTitle, qtyD]

/-- The grouping phase of the mixed absent-and-literal `"Unknown"`
scenario. -/
theorem unk_groups_eval :
    top_products_groups unkOrders = some [⟨"Unknown", 6, 12, "Other"⟩] := by
  rw [top_products_groups_eq]
  rw [show allItems unkOrders
      = [⟨none, none, some "1", some 2⟩,
         ⟨some "Unknown", none, some "2", some 3⟩,
         ⟨none, none, some "4", some 1⟩] from rfl]
  rw [foldlM_stepItem, if_pos (by decide)]
  simp only [List.foldl_cons, List.foldl_nil]
  rw [stepPure_eval [] _ "1" 1 rfl pd_d1, upd_unk1,
    stepPure_eval _ ⟨some "Unknown", none, some "2", some 3⟩ "2" 2 rfl pd_d2, upd_unk2,
    stepPure_eval _ ⟨none, none, some "4", some 1⟩ "4" 4 rfl pd_d4, upd_unk3]

/-- Witness for C10 on the mixed scenario: one `"Unknown"` aggregate whose
units cover both absent-title items and the literal one. -/
theorem c10_witness :
    (([⟨"Unknown", 6, (12 : Rat), "Other"⟩] : List Product).countP
        (fun p => p.title = "Unknown") = 1)
    ∧ (⟨"Unknown", 6, (12 : Rat), "Other"⟩ : Product).units
        = (((allItems unkOrders).filter
            (fun i => i.title = none ∨ i.title = some "Unknown")).map qtyD).sum := by
  have h := c10_unknown_bucket unkOrders _ unk_groups_eval
    ⟨⟨none, none, some "1", some 2⟩, by decide, rfl⟩
  exact ⟨h.1, h.2 _ (List.mem_singleton.mpr rfl) rfl⟩
